import Mathlib

set_option maxRecDepth 10000

/-!
Verification development for the cross-posting relay bot (`src/app.py`).

The program is a Telegram bot that debounces a text message, optionally merges
a trailing image, and fans the post out to Twitter/X, Farcaster and Bluesky.
This file shallowly embeds the pure computational core of the program:

* UTF-8 encoding/decoding of code points (Python `str.encode('UTF-8')` /
  `bytes.decode('UTF-8')`), used by `BlueskyClient.parse_links`;
* `parse_links` (byte-offset link facets);
* `extract_and_clean_text` (URL extraction/stripping and whitespace rules);
* `exponential_backoff` and `post_with_retry` (retry executor);
* `post_to_social` (fan-out coordinator and status-string synthesis);
* the debounce/pending-post state machine (`handle_message`, `handle_photo`,
  `wait_and_post`, the `pending_posts` table) as an event-step function.

Strings are modelled as `List Char` (Python `str`), byte strings as `List Nat`
(each entry < 256), code points as `Nat`.  Network calls are modelled as
oracles (`Nat → Except PyExc α`, indexed by attempt number), and
`random.uniform` jitter as an oracle `Nat → ℚ`.
-/

/-! ## UTF-8 encoding and decoding

`encodeCp` is the standard UTF-8 encoding of a single Unicode code point, as
produced by Python's `str.encode('UTF-8')` (Lean/Python strings contain no
surrogate code points). -/

/-- UTF-8 bytes of one code point. -/
def encodeCp (n : Nat) : List Nat :=
  if n < 128 then [n]
  else if n < 2048 then [192 + n / 64, 128 + n % 64]
  else if n < 65536 then [224 + n / 4096, 128 + n / 64 % 64, 128 + n % 64]
  else [240 + n / 262144, 128 + n / 4096 % 64, 128 + n / 64 % 64, 128 + n % 64]

/-- UTF-8 encoding of a sequence of code points. -/
def utf8Encode (cps : List Nat) : List Nat :=
  (cps.map encodeCp).flatten

/-- Code points of a Python `str`. -/
def toCps (s : List Char) : List Nat :=
  s.map (fun c => c.toNat)

/-- `text.encode('UTF-8')` for a Python string. -/
def strBytes (s : List Char) : List Nat :=
  utf8Encode (toCps s)

/-- A code point a `Char` may hold: not a surrogate, below `0x110000`. -/
def validCp (n : Nat) : Prop :=
  n < 55296 ∨ (57344 ≤ n ∧ n < 1114112)

/-- Decode a single UTF-8 sequence from the front of a byte string, returning
the code point and the remaining bytes.  Like Python's strict decoder it
rejects truncated sequences, bad continuation bytes, overlong encodings,
surrogates and out-of-range code points. -/
def decodeStep : List Nat → Option (Nat × List Nat)
  | [] => none
  | b :: rest =>
    if b < 128 then some (b, rest)
    else if 192 ≤ b ∧ b < 224 then
      match rest with
      | b1 :: r =>
        if 128 ≤ b1 ∧ b1 < 192 then
          let n := (b - 192) * 64 + (b1 - 128)
          if 128 ≤ n then some (n, r) else none
        else none
      | [] => none
    else if 224 ≤ b ∧ b < 240 then
      match rest with
      | b1 :: b2 :: r =>
        if (128 ≤ b1 ∧ b1 < 192) ∧ (128 ≤ b2 ∧ b2 < 192) then
          let n := (b - 224) * 4096 + (b1 - 128) * 64 + (b2 - 128)
          if 2048 ≤ n ∧ ¬(55296 ≤ n ∧ n < 57344) then some (n, r) else none
        else none
      | _ => none
    else if 240 ≤ b ∧ b < 248 then
      match rest with
      | b1 :: b2 :: b3 :: r =>
        if (128 ≤ b1 ∧ b1 < 192) ∧ (128 ≤ b2 ∧ b2 < 192) ∧ (128 ≤ b3 ∧ b3 < 192) then
          let n := (b - 240) * 262144 + (b1 - 128) * 4096 + (b2 - 128) * 64 + (b3 - 128)
          if 65536 ≤ n ∧ n < 1114112 then some (n, r) else none
        else none
      | _ => none
    else none

/-- Fuel-indexed UTF-8 decoder loop; `fuel ≥ length` always suffices. -/
def decAux : Nat → List Nat → Option (List Nat)
  | _, [] => some []
  | 0, _ :: _ => none
  | fuel+1, b :: rest =>
    match decodeStep (b :: rest) with
    | some (n, r) => (decAux fuel r).map (fun cs => n :: cs)
    | none => none

/-- `bytes.decode('UTF-8')`, returning code points. -/
def utf8Decode (bs : List Nat) : Option (List Nat) :=
  decAux bs.length bs

/-- Byte positions that fall on a UTF-8 character boundary of `utf8Encode cps`. -/
def IsBoundary (cps : List Nat) (i : Nat) : Prop :=
  ∃ k, k ≤ cps.length ∧ i = (utf8Encode (cps.take k)).length

/-! ## `BlueskyClient.parse_links`

The source scans `text.encode('UTF-8')` with the bytes regex `https?://\S+`
(`re.finditer`), and for each match records a facet with `byteStart`/`byteEnd`
from `match.span()` and `uri` from `match.group().decode('UTF-8')`.
For a bytes pattern `\S` matches any byte outside ` \t\n\r\f\v`. -/

/-- Bytes-regex `\S` complement: ASCII whitespace bytes. -/
def isWsByte (b : Nat) : Bool :=
  b == 9 || b == 10 || b == 11 || b == 12 || b == 13 || b == 32

/-- Length of the maximal `\S+`-matching prefix. -/
def nonWsLen : List Nat → Nat
  | [] => 0
  | b :: r => if isWsByte b then 0 else nonWsLen r + 1

/-- Length of the regex match `https?://\S+` anchored at the front of `l`
(leftmost-longest, with the greedy `s?` backtracking of Python `re`), or
`none` if the pattern does not match here.  `[104, 116, 116, 112, 115, 58,
47, 47]` is `"https://"`, `[104, 116, 116, 112, 58, 47, 47]` is `"http://"`. -/
def matchURLPrefix (l : List Nat) : Option Nat :=
  if l.take 8 = [104, 116, 116, 112, 115, 58, 47, 47] then
    let k := nonWsLen (l.drop 8)
    if k = 0 then none else some (8 + k)
  else if l.take 7 = [104, 116, 116, 112, 58, 47, 47] then
    let k := nonWsLen (l.drop 7)
    if k = 0 then none else some (7 + k)
  else none

/-- `re.finditer` span computation: scan left to right, emit each
non-overlapping match span `(start, end)`, resume after a match. -/
def scanAux : Nat → List Nat → Nat → List (Nat × Nat)
  | 0, _, _ => []
  | _+1, [], _ => []
  | fuel+1, b :: rest, pos =>
    match matchURLPrefix (b :: rest) with
    | some len => (pos, pos + len) :: scanAux fuel ((b :: rest).drop len) (pos + len)
    | none => scanAux fuel rest (pos + 1)

/-- All match spans of `https?://\S+` over a byte string. -/
def urlSpansB (bs : List Nat) : List (Nat × Nat) :=
  scanAux (bs.length + 1) bs 0

/-- One Bluesky link facet: `index.byteStart`, `index.byteEnd` and the
decoded `uri` (as code points). -/
structure Facet where
  byteStart : Nat
  byteEnd : Nat
  uri : List Nat
deriving DecidableEq

/-- Build the facet list from the match spans; decoding a match
(`match.group().decode('UTF-8')`) may in principle fail, which the source
would surface as an exception, hence `Option`. -/
def buildFacets (bs : List Nat) : List (Nat × Nat) → Option (List Facet)
  | [] => some []
  | sp :: rest =>
    match utf8Decode ((bs.drop sp.1).take (sp.2 - sp.1)), buildFacets bs rest with
    | some u, some fs => some (⟨sp.1, sp.2, u⟩ :: fs)
    | _, _ => none

/-- `BlueskyClient.parse_links`. -/
def parse_links (text : List Char) : Option (List Facet) :=
  buildFacets (strBytes text) (urlSpansB (strBytes text))

/-! ## `extract_and_clean_text` (Text/URL Normalizer)

The source finds all matches of the str regex `https?://\S+|www\.\S+`
(`re.findall`), keeps the first 2 whose UTF-8 length is ≤ 256 bytes, then for
every match runs `cleaned_text = cleaned_text.replace(url, '').strip()`, and
finally applies either `re.sub(r'\s+', ' ', ...)` (default) or the
line-break-preserving pipeline (`for_farcaster=True`), and strips.
For str patterns `\s` (and `str.strip`/`str.isspace`) means the Python
Unicode whitespace set. -/

/-- Python's `str` whitespace set (`str.isspace`, regex `\s`): categories
Zs/Zl/Zp plus bidirectional classes WS, B, S. -/
def isPySpace (c : Char) : Bool :=
  let n := c.toNat
  n == 32 || (9 ≤ n && n ≤ 13) || (28 ≤ n && n ≤ 31) || n == 133 || n == 160 ||
    n == 5760 || (8192 ≤ n && n ≤ 8202) || n == 8232 || n == 8233 ||
    n == 8239 || n == 8287 || n == 12288

/-- `str.strip()`: remove leading and trailing Python whitespace. -/
def pyStrip (s : List Char) : List Char :=
  ((s.dropWhile isPySpace).reverse.dropWhile isPySpace).reverse

/-- `str.rstrip()`: remove trailing Python whitespace. -/
def pyRstrip (s : List Char) : List Char :=
  (s.reverse.dropWhile isPySpace).reverse

/-- Length of the regex match `https?://\S+|www\.\S+` anchored at the front
of `l` (first alternative preferred, as in Python `re`), or `none`. -/
def matchUrlAt (l : List Char) : Option Nat :=
  if l.take 8 = "https://".toList then
    let k := ((l.drop 8).takeWhile (fun c => !isPySpace c)).length
    if k = 0 then none else some (8 + k)
  else if l.take 7 = "http://".toList then
    let k := ((l.drop 7).takeWhile (fun c => !isPySpace c)).length
    if k = 0 then none else some (7 + k)
  else if l.take 4 = "www.".toList then
    let k := ((l.drop 4).takeWhile (fun c => !isPySpace c)).length
    if k = 0 then none else some (4 + k)
  else none

/-- `re.findall(url_pattern, text)`: all non-overlapping matches, left to
right. -/
def findUrlsAux : Nat → List Char → List (List Char)
  | 0, _ => []
  | _+1, [] => []
  | fuel+1, c :: r =>
    match matchUrlAt (c :: r) with
    | some len => ((c :: r).take len) :: findUrlsAux fuel ((c :: r).drop len)
    | none => findUrlsAux fuel r

/-- All URL matches of `extract_and_clean_text`'s pattern in `s`. -/
def findallUrls (s : List Char) : List (List Char) :=
  findUrlsAux (s.length + 1) s

/-- `s.replace(pat, rep)`: replace every occurrence, left to right,
non-overlapping (Python `str.replace`). -/
def replAux (pat rep : List Char) : Nat → List Char → List Char
  | 0, s => s
  | _+1, [] => []
  | fuel+1, c :: r =>
    if pat ≠ [] ∧ (c :: r).take pat.length = pat then
      rep ++ replAux pat rep fuel ((c :: r).drop pat.length)
    else
      c :: replAux pat rep fuel r

/-- `s.replace(pat, rep)`. -/
def pyReplace (s pat rep : List Char) : List Char :=
  replAux pat rep (s.length + 1) s

/-- `re.sub(r'\s+', ' ', s)`: collapse every run of whitespace to one space.
The flag tracks whether we are inside a whitespace run. -/
def collapseAux : Bool → List Char → List Char
  | _, [] => []
  | inRun, c :: r =>
    if isPySpace c then
      if inRun then collapseAux true r else ' ' :: collapseAux true r
    else
      c :: collapseAux false r

/-- `re.sub(r'\s+', ' ', s)`. -/
def collapseWs (s : List Char) : List Char :=
  collapseAux false s

/-- Index (within a whitespace run) of the last `'\n'`, if any: the greedy
backtracking of `\n\s*\n` stops at the last newline of the run. -/
def lastNlIdx (l : List Char) : Option Nat :=
  match l with
  | [] => none
  | c :: r =>
    match lastNlIdx r with
    | some j => some (j + 1)
    | none => if c = '\n' then some 0 else none

/-- `re.sub(r'\n\s*\n', '\n\n', s)`: at each `'\n'`, greedily take whitespace
then require a final `'\n'`; replace the whole match by `"\n\n"` and resume
after it. -/
def subNlRuns : Nat → List Char → List Char
  | 0, s => s
  | _+1, [] => []
  | fuel+1, c :: r =>
    if c = '\n' then
      match lastNlIdx (r.takeWhile isPySpace) with
      | some j => '\n' :: '\n' :: subNlRuns fuel (r.drop (j + 1))
      | none => c :: subNlRuns fuel r
    else
      c :: subNlRuns fuel r

/-- Python `str.splitlines` boundary characters. -/
def isLineBreak (c : Char) : Bool :=
  c = '\n' || c = '\r' || c = '\x0b' || c = '\x0c' || c = '\x1c' ||
    c = '\x1d' || c = '\x1e' || c = '\x85' || c = '\u2028' || c = '\u2029'

/-- `str.splitlines()` (with `'\r\n'` counting as a single boundary; no
trailing empty line for a trailing terminator). -/
def splitlinesAux : Nat → List Char → List (List Char)
  | 0, _ => []
  | _+1, [] => []
  | fuel+1, c :: r =>
    if c = '\r' then
      match r with
      | '\n' :: r2 => [] :: splitlinesAux fuel r2
      | _ => [] :: splitlinesAux fuel r
    else if isLineBreak c then
      [] :: splitlinesAux fuel r
    else
      match splitlinesAux fuel r with
      | [] => [[c]]
      | line :: rest => (c :: line) :: rest

/-- `str.splitlines()`. -/
def pySplitlines (s : List Char) : List (List Char) :=
  splitlinesAux (s.length + 1) s

/-- `'\n'.join(line.rstrip() for line in s.splitlines())`. -/
def rstripLines (s : List Char) : List Char :=
  (List.intersperse ['\n'] ((pySplitlines s).map pyRstrip)).flatten

/-- The `for_farcaster=True` branch of `extract_and_clean_text`. -/
def farcasterClean (s : List Char) : List Char :=
  let s1 := pyReplace s ('\r' :: ['\n']) ['\n']
  let s2 := pyReplace s1 ['\r'] ['\n']
  let s3 := subNlRuns (s2.length + 1) s2
  rstripLines s3

/-- `extract_and_clean_text(text, for_farcaster)` from the source: find all
URL matches, keep the first 2 that fit in 256 UTF-8 bytes, strip every match
from the text via repeated `replace`/`strip`, then normalise whitespace. -/
def extract_and_clean_text (text : List Char) (for_farcaster : Bool := false) :
    List Char × List (List Char) :=
  let urls := findallUrls text
  let valid_urls := (urls.filter (fun u => decide ((strBytes u).length ≤ 256))).take 2
  let cleaned0 := urls.foldl (fun ct u => pyStrip (pyReplace ct u [])) text
  let cleaned1 := if for_farcaster then farcasterClean cleaned0 else collapseWs cleaned0
  (pyStrip cleaned1, valid_urls)

/-- Adjacent characters are not both whitespace. -/
def wsApart (a b : Char) : Prop :=
  isPySpace a = false ∨ isPySpace b = false

/-- A text where sequential `str.replace` passes splice a new occurrence of a
matched URL into the cleaned text: the URLs found are `"http://a"`,
`"http://x"` and `"http://xp://a"`; removing `"http://x"` everywhere turns
`"htthttp://xp://a"` into `"http://a"`. -/
def spliceText : List Char :=
  "http://a http://x htthttp://xp://a".toList

/-- The spec's example short URL (12 UTF-8 bytes). -/
def shortUrlEx : List Char :=
  "https://s.co".toList

/-- The spec's example long URL (260 UTF-8 bytes, over the 256 limit). -/
def longUrlEx : List Char :=
  "https://x.co/".toList ++ List.replicate 247 'a'

/-- The spec's example input: one short URL and one over-long URL. -/
def scenarioText : List Char :=
  "Hello ".toList ++ shortUrlEx ++ [' '] ++ longUrlEx ++ " world".toList

/-! ## Retry executor (`exponential_backoff`, `post_with_retry`)

A Python exception is modelled by whether it carries a `response` attribute
and that response's `status_code`; `asyncio.sleep` is modelled by recording
the slept delays; the wrapped operation is an oracle indexed by the attempt
number; `random.uniform(0, 0.1 * delay)` is an oracle `Nat → ℚ`. -/

/-- A raised exception as `post_with_retry` inspects it: `hasattr(e,
'response')` and `e.response.status_code`.  The `tag` distinguishes
exception instances. -/
structure PyExc where
  response : Option Nat
  tag : Nat := 0
deriving DecidableEq

/-- `hasattr(e, 'response') and e.response.status_code == 429`. -/
def isRateLimit (e : PyExc) : Bool :=
  match e.response with
  | some c => c == 429
  | none => false

/-- `exponential_backoff(attempt, max_delay=32)` with the drawn jitter passed
in: `min(max_delay, 2 ** attempt) + jitter`. -/
def exponential_backoff (attempt : Nat) (jitter : ℚ) (max_delay : ℚ := 32) : ℚ :=
  min max_delay (2 ^ attempt) + jitter

/-- Result of `post_with_retry`: the value or raised exception (`none` for
the degenerate `raise None` after a zero-iteration loop), the number of
invocations of the wrapped operation, and the list of slept delays. -/
structure RetryResult (α : Type) where
  result : Except (Option PyExc) α
  attempts : Nat
  sleeps : List ℚ

/-- The `for attempt in range(max_retries)` loop of `post_with_retry`. -/
def retryGo (op : Nat → Except PyExc α) (jitter : Nat → ℚ) :
    Nat → Nat → Option PyExc → List ℚ → RetryResult α
  | 0, attempt, last, sleeps => ⟨.error last, attempt, sleeps⟩
  | fuel+1, attempt, _, sleeps =>
    match op attempt with
    | .ok v => ⟨.ok v, attempt + 1, sleeps⟩
    | .error e =>
      if isRateLimit e then
        retryGo op jitter fuel (attempt + 1) (some e)
          (sleeps ++ [exponential_backoff attempt (jitter attempt)])
      else ⟨.error (some e), attempt + 1, sleeps⟩

/-- `post_with_retry(func, max_retries=3)`: call the operation; on a
rate-limit (HTTP 429) failure sleep the backoff delay and retry; on any other
failure re-raise immediately; after exhausting the budget raise the last
exception. -/
def post_with_retry (op : Nat → Except PyExc α) (jitter : Nat → ℚ)
    (max_retries : Nat := 3) : RetryResult α :=
  retryGo op jitter max_retries 0 none []

/-- Does this call outcome raise a rate-limited exception? -/
def isRLfail : Except PyExc α → Bool
  | .error e => isRateLimit e
  | .ok _ => false

/-! ## Fan-out coordinator (`post_to_social`)

Each publisher call is a network effect; it is modelled as an oracle
`Nat → Except PyExc _` (indexed by attempt number) fed through
`post_with_retry` exactly as in the source.  The status-string synthesis of
lines 426-456 is `statusMsg`. -/

/-- Code-point comparison of two strings, as Python `list.sort` compares
`str` values. -/
def lexLt : List Char → List Char → Bool
  | [], [] => false
  | [], _ :: _ => true
  | _ :: _, [] => false
  | a :: as, b :: bs =>
    if a.toNat < b.toNat then true
    else if b.toNat < a.toNat then false
    else lexLt as bs

/-- Insert into a sorted list (for `list.sort()`). -/
def insertSorted (x : String) : List String → List String
  | [] => [x]
  | y :: r => if lexLt y.toList x.toList then y :: insertSorted x r else x :: y :: r

/-- `list.sort()`: sort strings by code points. -/
def pySort (l : List String) : List String :=
  l.foldr insertSorted []

/-- The status-message synthesis of `post_to_social` (lines 426-456): build
`successes`/`failures` in the order Bluesky, Farcaster, X, sort each
alphabetically, emit a `"Posted: ..."` part if any success and a
`"Failed: ..."` part if any failure, and join the parts with `" / "` when
there are failures (empty joiner otherwise). -/
def statusMsg (bluesky_success farcaster_success twitter_success : Bool) : String :=
  let successes :=
    (if bluesky_success then ["Bluesky"] else []) ++
    (if farcaster_success then ["Farcaster"] else []) ++
    (if twitter_success then ["X"] else [])
  let failures :=
    (if bluesky_success then [] else ["Bluesky"]) ++
    (if farcaster_success then [] else ["Farcaster"]) ++
    (if twitter_success then [] else ["X"])
  let successes := pySort successes
  let failures := pySort failures
  let status_parts :=
    (if successes ≠ [] then ["Posted: " ++ String.intercalate ", " successes] else []) ++
    (if failures ≠ [] then ["Failed: " ++ String.intercalate ", " failures] else [])
  let sep := if failures ≠ [] then " / " else ""
  String.intercalate sep status_parts

/-- The status string exactly as the claim words it: `"Posted: "` followed by
the comma-joined alphabetically sorted successful platform names, followed —
only when at least one platform failed — by `" / Failed: "` and the
comma-joined alphabetically sorted failed names; the `"Posted"` clause is
absent exactly when zero platforms succeeded and the `"Failed"` clause is
absent exactly when zero platforms failed.  This definition follows the
claim's wording, for comparison with `statusMsg` from the code. -/
def specStatusString (bluesky_success farcaster_success twitter_success : Bool) : String :=
  let succ :=
    (if bluesky_success then ["Bluesky"] else []) ++
    (if farcaster_success then ["Farcaster"] else []) ++
    (if twitter_success then ["X"] else [])
  let fail :=
    (if bluesky_success then [] else ["Bluesky"]) ++
    (if farcaster_success then [] else ["Farcaster"]) ++
    (if twitter_success then [] else ["X"])
  (if succ ≠ [] then "Posted: " ++ String.intercalate ", " succ else "") ++
  (if succ ≠ [] ∧ fail ≠ [] then " / " else "") ++
  (if fail ≠ [] then "Failed: " ++ String.intercalate ", " fail else "")

/-- Whether a wrapped publisher call returned normally. -/
def exOk : Except (Option PyExc) α → Bool
  | .ok _ => true
  | .error _ => false

/-- The tuple returned by `post_to_social`, plus the per-platform invocation
counts of the retry executor (for the isolation property). -/
structure FanoutResult where
  tweet_url : Option String
  bluesky_uri : Option String
  farcaster_status : Option Nat
  status_msg : String
  twitterAttempts : Nat
  farcasterAttempts : Nat
  blueskyAttempts : Nat

/-- `post_to_social`: run the three publishers independently, each inside
`post_with_retry` and an isolating `try/except` (an `.error` outcome is
caught and recorded as that platform's failure, never re-raised), then
synthesise the status message. -/
def post_to_social (twOp : Nat → Except PyExc String) (fcOp : Nat → Except PyExc Nat)
    (bsOp : Nat → Except PyExc String) (jt jf jb : Nat → ℚ) : FanoutResult :=
  let rt := post_with_retry twOp jt
  let rf := post_with_retry fcOp jf
  let rb := post_with_retry bsOp jb
  let tweet_url := match rt.result with
    | .ok i => some ("https://twitter.com/user/status/" ++ i)
    | .error _ => none
  let farcaster_status := match rf.result with
    | .ok c => some c
    | .error _ => none
  let bluesky_uri := match rb.result with
    | .ok u => some u
    | .error _ => none
  ⟨tweet_url, bluesky_uri, farcaster_status,
    statusMsg (exOk rb.result) (exOk rf.result) (exOk rt.result),
    rt.attempts, rf.attempts, rb.attempts⟩

/-! ## Debounce / pending-post manager

`pending_posts`, `handle_message`, `handle_photo` and `wait_and_post` form a
per-user state machine over asyncio tasks.  Events:

* `recvText u txt chat` — `handle_message` runs atomically (it has no await
  between cancelling the old task and storing the new entry);
* `fireTimer tid ok` — a sleeping `wait_and_post` task's 36-second sleep
  elapses and its body runs (`ok` says whether `post_to_social` returned
  normally or raised — the backstop `except` path);
* `runCancelled tid` — a cancelled task's `CancelledError` is delivered at
  its `await asyncio.sleep(36)`.  Since Python 3.8 `CancelledError` derives
  from `BaseException`, so `except Exception` does *not* catch it and only
  the `finally` block runs: `if user_id in pending_posts: del
  pending_posts[user_id]`;
* `recvPhoto u ok` — `handle_photo` (the photo download and publish happen
  after the text is saved; the entry is deleted in its `finally`).

Entries never acquire an `image_data` key in this program (`handle_photo`
posts directly and never stores the image), so `wait_and_post`'s
`not ...get('image_data')` test is always true when the entry exists. -/

/-- Status of a `wait_and_post` asyncio task. -/
inductive TaskStatus
  | sleeping
  | cancelRequested
  | done
deriving DecidableEq

/-- Book-keeping for one `wait_and_post` task. -/
structure TaskRec where
  user : Nat
  status : TaskStatus
deriving DecidableEq

/-- One `pending_posts[user_id]` entry: text, debounce-task handle, chat id. -/
structure Entry where
  text : String
  task : Nat
  chatId : Nat
deriving DecidableEq

/-- The bot's global state: the `pending_posts` table, the live tasks, a
fresh-task counter, the log of `post_to_social` publishes `(user, text,
with_image)` in order, and the log of replies `(chat, text)`. -/
structure BotState where
  pending : Nat → Option Entry
  tasks : Nat → Option TaskRec
  nextTask : Nat
  published : List (Nat × String × Bool)
  replies : List (Nat × String)

/-- The initial state: empty `pending_posts`, no tasks. -/
def initState : BotState :=
  ⟨fun _ => none, fun _ => none, 0, [], []⟩

/-- `task.cancel()` on a sleeping task marks it for cancellation; cancelling
a finished task is a no-op. -/
def cancelTask (tasks : Nat → Option TaskRec) (tid : Nat) : Nat → Option TaskRec :=
  fun t =>
    if t = tid then
      match tasks t with
      | some r => some ⟨r.user, if r.status = .sleeping then .cancelRequested else r.status⟩
      | none => none
    else tasks t

/-- An inbound event. -/
inductive Event
  | recvText (u : Nat) (txt : String) (chat : Nat)
  | fireTimer (tid : Nat) (postOk : Bool)
  | runCancelled (tid : Nat)
  | recvPhoto (u : Nat) (postOk : Bool)

/-- One step of the debounce manager. -/
def step (s : BotState) : Event → BotState
  | .recvText u txt chat =>
    let tasks1 := match s.pending u with
      | some e => cancelTask s.tasks e.task
      | none => s.tasks
    let tid := s.nextTask
    let tasks2 := fun t => if t = tid then some ⟨u, .sleeping⟩ else tasks1 t
    { s with
      pending := fun x => if x = u then some ⟨txt, tid, chat⟩ else s.pending x,
      tasks := tasks2,
      nextTask := tid + 1 }
  | .fireTimer tid ok =>
    match s.tasks tid with
    | some ⟨u, .sleeping⟩ =>
      let (pub, rep) := match s.pending u with
        | some e =>
          if ok then ([(u, e.text, false)], [(e.chatId, "status")])
          else ([], [(e.chatId, "Failed posting to social platforms")])
        | none => ([], [])
      { s with
        pending := fun x => if x = u then none else s.pending x,
        tasks := fun t => if t = tid then some ⟨u, .done⟩ else s.tasks t,
        published := s.published ++ pub,
        replies := s.replies ++ rep }
    | _ => s
  | .runCancelled tid =>
    match s.tasks tid with
    | some ⟨u, .cancelRequested⟩ =>
      { s with
        pending := fun x => if x = u then none else s.pending x,
        tasks := fun t => if t = tid then some ⟨u, .done⟩ else s.tasks t }
    | _ => s
  | .recvPhoto u ok =>
    match s.pending u with
    | none => { s with replies := s.replies ++ [(u, "Please send text first.")] }
    | some e =>
      let tasks1 := cancelTask s.tasks e.task
      let rep := if ok then [(u, "status")] else [(u, "Failed posting to social platforms")]
      { s with
        pending := fun x => if x = u then none else s.pending x,
        tasks := tasks1,
        published := s.published ++ (if ok then [(u, e.text, true)] else []),
        replies := s.replies ++ rep }

/-- Run a trace of events from the initial state. -/
def runTrace (evs : List Event) : BotState :=
  evs.foldl step initState

theorem utf8Encode_append (a b : List Nat) :
    utf8Encode (a ++ b) = utf8Encode a ++ utf8Encode b := by
  simp [utf8Encode]

theorem utf8Encode_cons (n : Nat) (l : List Nat) :
    utf8Encode (n :: l) = encodeCp n ++ utf8Encode l := by
  simp [utf8Encode]

theorem encodeCp_length_pos (n : Nat) : 0 < (encodeCp n).length := by
  unfold encodeCp
  split <;> simp_all
  split <;> simp_all
  split <;> simp_all

theorem length_le_utf8Encode_length (l : List Nat) : l.length ≤ (utf8Encode l).length := by
  induction l with
  | nil => simp [utf8Encode]
  | cons n t ih =>
    rw [utf8Encode_cons, List.length_append, List.length_cons]
    have := encodeCp_length_pos n
    omega

theorem encodeCp_high (n : Nat) (hn : 128 ≤ n) :
    ∀ b ∈ encodeCp n, 128 ≤ b := by
  intro b hb
  unfold encodeCp at hb
  split at hb
  · omega
  · split at hb
    · simp at hb; omega
    · split at hb
      · simp at hb; omega
      · simp at hb; omega

theorem decodeStep_encodeCp (n : Nat) (hv : validCp n) (rest : List Nat) :
    decodeStep (encodeCp n ++ rest) = some (n, rest) := by
  by_cases h1 : n < 128
  · rw [show encodeCp n = [n] from by simp [encodeCp, h1]]
    simp [decodeStep, h1]
  · by_cases h2 : n < 2048
    · rw [show encodeCp n = [192 + n / 64, 128 + n % 64] from by simp [encodeCp, h1, h2]]
      simp only [List.cons_append, List.nil_append, decodeStep]
      rw [if_neg (by omega), if_pos (by omega : 192 ≤ 192 + n / 64 ∧ 192 + n / 64 < 224),
        if_pos (by omega : 128 ≤ 128 + n % 64 ∧ 128 + n % 64 < 192)]
      have e2 : (192 + n / 64 - 192) * 64 + (128 + n % 64 - 128) = n := by omega
      rw [e2, if_pos (show 128 ≤ n from by omega)]
    · by_cases h3 : n < 65536
      · rw [show encodeCp n = [224 + n / 4096, 128 + n / 64 % 64, 128 + n % 64] from by
          simp [encodeCp, h1, h2, h3]]
        simp only [List.cons_append, List.nil_append, decodeStep]
        rw [if_neg (by omega), if_neg (by omega), if_pos (by omega :
          224 ≤ 224 + n / 4096 ∧ 224 + n / 4096 < 240), if_pos (by constructor <;> omega)]
        have e3 : (224 + n / 4096 - 224) * 4096 + (128 + n / 64 % 64 - 128) * 64 +
            (128 + n % 64 - 128) = n := by omega
        rw [e3, if_pos (show 2048 ≤ n ∧ ¬(55296 ≤ n ∧ n < 57344) from by
          rcases hv with h | h <;> omega)]
      · have h4 : n < 1114112 := by rcases hv with h | h <;> omega
        rw [show encodeCp n =
            [240 + n / 262144, 128 + n / 4096 % 64, 128 + n / 64 % 64, 128 + n % 64] from by
          simp [encodeCp, h1, h2, h3]]
        simp only [List.cons_append, List.nil_append, decodeStep]
        rw [if_neg (by omega), if_neg (by omega), if_neg (by omega), if_pos (by omega :
          240 ≤ 240 + n / 262144 ∧ 240 + n / 262144 < 248),
          if_pos (by refine ⟨⟨by omega, by omega⟩, ⟨by omega, by omega⟩, by omega, by omega⟩)]
        have e4 : (240 + n / 262144 - 240) * 262144 + (128 + n / 4096 % 64 - 128) * 4096 +
            (128 + n / 64 % 64 - 128) * 64 + (128 + n % 64 - 128) = n := by omega
        rw [e4, if_pos (show 65536 ≤ n ∧ n < 1114112 from ⟨by omega, h4⟩)]

theorem decAux_utf8Encode (cps : List Nat) (hv : ∀ n ∈ cps, validCp n) :
    ∀ fuel, (utf8Encode cps).length ≤ fuel → decAux fuel (utf8Encode cps) = some cps := by
  induction cps with
  | nil => intro fuel _; simp [utf8Encode, decAux]
  | cons n t ih =>
    intro fuel hfuel
    have hvn : validCp n := hv n (by simp)
    have hvt : ∀ m ∈ t, validCp m := fun m hm => hv m (by simp [hm])
    rw [utf8Encode_cons] at hfuel ⊢
    have hpos : 0 < (encodeCp n).length := encodeCp_length_pos n
    obtain ⟨f, rfl⟩ : ∃ f, fuel = f + 1 := by
      rw [List.length_append] at hfuel
      cases fuel with
      | zero => omega
      | succ f => exact ⟨f, rfl⟩
    obtain ⟨b, bs, hb⟩ : ∃ b bs, encodeCp n ++ utf8Encode t = b :: bs := by
      cases hcn : encodeCp n with
      | nil => rw [hcn] at hpos; simp at hpos
      | cons x xs => exact ⟨x, xs ++ utf8Encode t, by simp [hcn]⟩
    rw [hb, decAux, ← hb, decodeStep_encodeCp n hvn]
    have hlen : (utf8Encode t).length ≤ f := by
      rw [List.length_append] at hfuel
      omega
    show Option.map (fun cs => n :: cs) (decAux f (utf8Encode t)) = some (n :: t)
    rw [ih hvt f hlen]
    rfl

theorem utf8Decode_utf8Encode (cps : List Nat) (hv : ∀ n ∈ cps, validCp n) :
    utf8Decode (utf8Encode cps) = some cps :=
  decAux_utf8Encode cps hv _ le_rfl

theorem validCp_char (c : Char) : validCp c.toNat := by
  have h := c.valid
  unfold UInt32.isValidChar Nat.isValidChar at h
  unfold validCp
  rcases h with h | ⟨h1, h2⟩
  · exact Or.inl h
  · exact Or.inr ⟨h1, h2⟩

theorem validCp_toCps (s : List Char) : ∀ n ∈ toCps s, validCp n := by
  intro n hn
  unfold toCps at hn
  obtain ⟨c, _, rfl⟩ := List.mem_map.mp hn
  exact validCp_char c

theorem isBoundary_zero (cps : List Nat) : IsBoundary cps 0 :=
  ⟨0, Nat.zero_le _, by simp [utf8Encode]⟩

theorem isBoundary_length (cps : List Nat) : IsBoundary cps (utf8Encode cps).length :=
  ⟨cps.length, le_rfl, by rw [List.take_length]⟩

theorem ascii_isBoundary (cps : List Nat) :
    ∀ i b, (utf8Encode cps)[i]? = some b → b < 128 → IsBoundary cps i := by
  induction cps with
  | nil => intro i b hb _; simp [utf8Encode] at hb
  | cons n t ih =>
    intro i b hb hlt
    rw [utf8Encode_cons, List.getElem?_append] at hb
    by_cases hi : i < (encodeCp n).length
    · rw [if_pos hi] at hb
      by_cases hn : n < 128
      · have he : encodeCp n = [n] := by simp [encodeCp, hn]
        rw [he] at hb hi
        simp at hi
        subst hi
        exact isBoundary_zero _
      · have hmem : b ∈ encodeCp n := List.getElem?_mem hb
        have := encodeCp_high n (by omega) b hmem
        omega
    · rw [if_neg hi] at hb
      push_neg at hi
      obtain ⟨k, hk, hik⟩ := ih (i - (encodeCp n).length) b hb hlt
      refine ⟨k + 1, by simpa using hk, ?_⟩
      rw [List.take_succ_cons, utf8Encode_cons, List.length_append]
      omega

theorem utf8Encode_take_strictmono (cps : List Nat) (k1 k2 : Nat)
    (h : k2 < k1) (h1 : k1 ≤ cps.length) :
    (utf8Encode (cps.take k2)).length < (utf8Encode (cps.take k1)).length := by
  have hsplit : cps.take k1 = cps.take k2 ++ (cps.drop k2).take (k1 - k2) := by
    rw [← List.take_add]
    congr 1
    omega
  rw [hsplit, utf8Encode_append, List.length_append]
  have hne : 0 < ((cps.drop k2).take (k1 - k2)).length := by
    rw [List.length_take, List.length_drop]
    omega
  have := length_le_utf8Encode_length ((cps.drop k2).take (k1 - k2))
  omega

theorem slice_between_boundaries (cps : List Nat) (k1 k2 : Nat)
    (hk : k1 ≤ k2) :
    ((utf8Encode cps).drop (utf8Encode (cps.take k1)).length).take
      ((utf8Encode (cps.take k2)).length - (utf8Encode (cps.take k1)).length)
    = utf8Encode ((cps.take k2).drop k1) := by
  have h2 : cps.take k2 = cps.take k1 ++ (cps.take k2).drop k1 := by
    have h := List.take_append_drop k1 (cps.take k2)
    rw [List.take_take, Nat.min_eq_left hk] at h
    exact h.symm
  have h1 : cps = cps.take k1 ++ ((cps.take k2).drop k1 ++ cps.drop k2) := by
    rw [← List.append_assoc, ← h2, List.take_append_drop]
  have hlen2 : (utf8Encode (cps.take k2)).length =
      (utf8Encode (cps.take k1)).length + (utf8Encode ((cps.take k2).drop k1)).length := by
    conv_lhs => rw [h2]
    rw [utf8Encode_append, List.length_append]
  have harg : (utf8Encode (cps.take k2)).length - (utf8Encode (cps.take k1)).length =
      (utf8Encode ((cps.take k2).drop k1)).length := by
    omega
  have hcps : utf8Encode cps = utf8Encode (cps.take k1) ++
      (utf8Encode ((cps.take k2).drop k1) ++ utf8Encode (cps.drop k2)) := by
    conv_lhs => rw [h1]
    rw [utf8Encode_append, utf8Encode_append]
  rw [hcps, List.drop_left, harg, List.take_left]

theorem nonWsLen_le (l : List Nat) : nonWsLen l ≤ l.length := by
  induction l with
  | nil => simp [nonWsLen]
  | cons b r ih =>
    rw [nonWsLen]
    split
    · simp
    · simp
      omega

theorem nonWsLen_end (l : List Nat) :
    nonWsLen l = l.length ∨ ∃ b, l[nonWsLen l]? = some b ∧ isWsByte b = true := by
  induction l with
  | nil => left; simp [nonWsLen]
  | cons b r ih =>
    rw [nonWsLen]
    split
    · right
      exact ⟨b, by simp, by assumption⟩
    · rcases ih with h | ⟨c, hc, hw⟩
      · left; simp [h]
      · right; exact ⟨c, by simpa using hc, hw⟩

theorem matchURLPrefix_bounds {l : List Nat} {len : Nat}
    (h : matchURLPrefix l = some len) : 1 ≤ len ∧ len ≤ l.length := by
  unfold matchURLPrefix at h
  split at h
  · have h8 : 8 ≤ l.length := by
      have := congrArg List.length (by assumption : l.take 8 = _)
      simp at this
      omega
    have hk := nonWsLen_le (l.drop 8)
    rw [List.length_drop] at hk
    by_cases hz : nonWsLen (l.drop 8) = 0
    · simp [hz] at h
    · simp only [hz, if_neg, ite_false, Option.some.injEq] at h
      omega
  · split at h
    · have h7 : 7 ≤ l.length := by
        have := congrArg List.length (by assumption : l.take 7 = _)
        simp at this
        omega
      have hk := nonWsLen_le (l.drop 7)
      rw [List.length_drop] at hk
      by_cases hz : nonWsLen (l.drop 7) = 0
      · simp [hz] at h
      · simp only [hz, if_neg, ite_false, Option.some.injEq] at h
        omega
    · exact absurd h (by simp)

theorem matchURLPrefix_head {l : List Nat} {len : Nat}
    (h : matchURLPrefix l = some len) : l[0]? = some 104 := by
  unfold matchURLPrefix at h
  split at h
  · have ht : l.take 8 = [104, 116, 116, 112, 115, 58, 47, 47] := by assumption
    have : (l.take 8)[0]? = some 104 := by rw [ht]; rfl
    rw [List.getElem?_take] at this
    simpa using this
  · split at h
    · have ht : l.take 7 = [104, 116, 116, 112, 58, 47, 47] := by assumption
      have : (l.take 7)[0]? = some 104 := by rw [ht]; rfl
      rw [List.getElem?_take] at this
      simpa using this
    · exact absurd h (by simp)

theorem matchURLPrefix_end {l : List Nat} {len : Nat}
    (h : matchURLPrefix l = some len) :
    len = l.length ∨ ∃ b, l[len]? = some b ∧ isWsByte b = true := by
  unfold matchURLPrefix at h
  split at h
  · have h8 : 8 ≤ l.length := by
      have := congrArg List.length (by assumption : l.take 8 = _)
      simp at this
      omega
    by_cases hz : nonWsLen (l.drop 8) = 0
    · simp [hz] at h
    · simp only [hz, if_neg, ite_false, Option.some.injEq] at h
      have hlen : len = 8 + nonWsLen (l.drop 8) := by omega
      rcases nonWsLen_end (l.drop 8) with he | ⟨b, hb, hw⟩
      · left
        rw [List.length_drop] at he
        omega
      · right
        rw [List.getElem?_drop] at hb
        exact ⟨b, by rw [hlen]; exact hb, hw⟩
  · split at h
    · have h7 : 7 ≤ l.length := by
        have := congrArg List.length (by assumption : l.take 7 = _)
        simp at this
        omega
      by_cases hz : nonWsLen (l.drop 7) = 0
      · simp [hz] at h
      · simp only [hz, if_neg, ite_false, Option.some.injEq] at h
        have hlen : len = 7 + nonWsLen (l.drop 7) := by omega
        rcases nonWsLen_end (l.drop 7) with he | ⟨b, hb, hw⟩
        · left
          rw [List.length_drop] at he
          omega
        · right
          rw [List.getElem?_drop] at hb
          exact ⟨b, by rw [hlen]; exact hb, hw⟩
    · exact absurd h (by simp)

theorem isWsByte_lt128 {b : Nat} (h : isWsByte b = true) : b < 128 := by
  simp [isWsByte] at h
  rcases h with h | h | h | h | h | h <;> omega

theorem scanAux_cons_some {fuel b pos len : Nat} {r : List Nat}
    (hm : matchURLPrefix (b :: r) = some len) :
    scanAux (fuel+1) (b :: r) pos =
      (pos, pos + len) :: scanAux fuel ((b :: r).drop len) (pos + len) := by
  rw [scanAux, hm]

theorem scanAux_cons_none {fuel b pos : Nat} {r : List Nat}
    (hm : matchURLPrefix (b :: r) = none) :
    scanAux (fuel+1) (b :: r) pos = scanAux fuel r (pos + 1) := by
  rw [scanAux, hm]

theorem scanAux_spec (bs : List Nat) :
    ∀ fuel pos, bs.length - pos < fuel →
      (∀ sp ∈ scanAux fuel (bs.drop pos) pos,
        pos ≤ sp.1 ∧ sp.1 < sp.2 ∧ sp.2 ≤ bs.length ∧
        bs[sp.1]? = some 104 ∧
        (sp.2 = bs.length ∨ ∃ b, bs[sp.2]? = some b ∧ isWsByte b = true)) ∧
      List.Chain' (fun a b => a.2 ≤ b.1) (scanAux fuel (bs.drop pos) pos) := by
  intro fuel
  induction fuel with
  | zero => intro pos h; omega
  | succ fuel ih =>
    intro pos hfuel
    cases hdrop : bs.drop pos with
    | nil => simp [scanAux]
    | cons b rest =>
      have hlendrop : (bs.drop pos).length = bs.length - pos := List.length_drop ..
      have hposlt : pos < bs.length := by
        rw [hdrop] at hlendrop
        simp at hlendrop
        omega
      cases hm : matchURLPrefix (b :: rest) with
      | none =>
        rw [scanAux_cons_none hm]
        have hrest : rest = bs.drop (pos + 1) := by
          have h1 : (bs.drop pos).drop 1 = bs.drop (pos + 1) := List.drop_drop ..
          rw [hdrop] at h1
          simpa using h1
        rw [hrest]
        have := ih (pos + 1) (by omega)
        constructor
        · intro sp hsp
          have hp := this.1 sp hsp
          exact ⟨by omega, hp.2⟩
        · exact this.2
      | some len =>
        rw [scanAux_cons_some hm]
        have hbounds := matchURLPrefix_bounds hm
        have hhead := matchURLPrefix_head hm
        have hend := matchURLPrefix_end hm
        rw [← hdrop] at hbounds hhead hend
        have hrest2 : (b :: rest).drop len = bs.drop (pos + len) := by
          rw [← hdrop]
          exact List.drop_drop len pos bs
        rw [hrest2]
        have hihres := ih (pos + len) (by
          rw [hlendrop] at hbounds
          omega)
        have hs104 : bs[pos]? = some 104 := by
          have := hhead
          rw [List.getElem?_drop] at this
          simpa using this
        have hendabs : pos + len = bs.length ∨
            ∃ c, bs[pos + len]? = some c ∧ isWsByte c = true := by
          rcases hend with he | ⟨c, hc, hw⟩
          · left
            rw [hlendrop] at he
            omega
          · right
            rw [List.getElem?_drop] at hc
            exact ⟨c, hc, hw⟩
        have hlenle : pos + len ≤ bs.length := by
          rw [hlendrop] at hbounds
          omega
        constructor
        · intro sp hsp
          rcases List.mem_cons.mp hsp with rfl | htail
          · exact ⟨le_rfl, by omega, hlenle, hs104, hendabs⟩
          · have hp := (hihres.1 sp htail)
            exact ⟨by omega, hp.2⟩
        · rw [List.chain'_cons']
          constructor
          · intro y hy
            have hymem : y ∈ scanAux fuel (bs.drop (pos + len)) (pos + len) :=
              List.mem_of_mem_head? hy
            exact (hihres.1 y hymem).1
          · exact hihres.2

theorem urlSpansB_spec (bs : List Nat) :
    (∀ sp ∈ urlSpansB bs,
      sp.1 < sp.2 ∧ sp.2 ≤ bs.length ∧
      bs[sp.1]? = some 104 ∧
      (sp.2 = bs.length ∨ ∃ b, bs[sp.2]? = some b ∧ isWsByte b = true)) ∧
    List.Chain' (fun a b => a.2 ≤ b.1) (urlSpansB bs) := by
  have h := scanAux_spec bs (bs.length + 1) 0 (by omega)
  rw [List.drop_zero] at h
  unfold urlSpansB
  exact ⟨fun sp hsp => ((h.1 sp hsp).2), h.2⟩

theorem buildFacets_spec (bs : List Nat) :
    ∀ spans : List (Nat × Nat),
      (∀ sp ∈ spans, ∃ mid, ((bs.drop sp.1).take (sp.2 - sp.1)) = utf8Encode mid ∧
        ∀ n ∈ mid, validCp n) →
      ∃ fs, buildFacets bs spans = some fs ∧
        fs.map (fun f => (f.byteStart, f.byteEnd)) = spans ∧
        ∀ f ∈ fs, ((bs.drop f.byteStart).take (f.byteEnd - f.byteStart)) = utf8Encode f.uri := by
  intro spans
  induction spans with
  | nil => intro _; exact ⟨[], rfl, rfl, by simp⟩
  | cons sp rest ih =>
    intro h
    obtain ⟨mid, hmid, hval⟩ := h sp (by simp)
    obtain ⟨fs, hfs, hmap, hsl⟩ := ih (fun q hq => h q (by simp [hq]))
    refine ⟨⟨sp.1, sp.2, mid⟩ :: fs, ?_, ?_, ?_⟩
    · rw [buildFacets, hmid, utf8Decode_utf8Encode mid hval, hfs]
    · simp [hmap]
    · intro f hf
      rcases List.mem_cons.mp hf with rfl | hmem
      · exact hmid
      · exact hsl f hmem

theorem parse_links_spec (text : List Char) :
    ∃ fs, parse_links text = some fs ∧
      fs.map (fun f => (f.byteStart, f.byteEnd)) = urlSpansB (strBytes text) ∧
      (∀ f ∈ fs, f.byteStart < f.byteEnd ∧ f.byteEnd ≤ (strBytes text).length ∧
        ((strBytes text).drop f.byteStart).take (f.byteEnd - f.byteStart) = utf8Encode f.uri) ∧
      List.Chain' (fun a b => a.byteEnd ≤ b.byteStart) fs := by
  obtain ⟨hspans, hchain⟩ := urlSpansB_spec (strBytes text)
  have hdec : ∀ sp ∈ urlSpansB (strBytes text),
      ∃ mid, (((strBytes text).drop sp.1).take (sp.2 - sp.1)) = utf8Encode mid ∧
        ∀ n ∈ mid, validCp n := by
    intro sp hsp
    obtain ⟨hlt, hle, h104, hend⟩ := hspans sp hsp
    have hb1 : IsBoundary (toCps text) sp.1 :=
      ascii_isBoundary (toCps text) sp.1 104 h104 (by omega)
    have hb2 : IsBoundary (toCps text) sp.2 := by
      rcases hend with he | ⟨b, hb, hw⟩
      · rw [he]
        exact isBoundary_length (toCps text)
      · exact ascii_isBoundary (toCps text) sp.2 b hb (isWsByte_lt128 hw)
    obtain ⟨k1, hk1, he1⟩ := hb1
    obtain ⟨k2, hk2, he2⟩ := hb2
    have hk12 : k1 ≤ k2 := by
      by_contra hcon
      push_neg at hcon
      have := utf8Encode_take_strictmono (toCps text) k1 k2 hcon hk1
      omega
    refine ⟨((toCps text).take k2).drop k1, ?_, ?_⟩
    · rw [he1, he2]
      exact slice_between_boundaries (toCps text) k1 k2 hk12
    · intro n hn
      have hmem : n ∈ toCps text :=
        List.mem_of_mem_take (List.mem_of_mem_drop hn)
      exact validCp_toCps text n hmem
  obtain ⟨fs, hfs, hmap, hsl⟩ := buildFacets_spec (strBytes text) (urlSpansB (strBytes text)) hdec
  refine ⟨fs, hfs, hmap, ?_, ?_⟩
  · intro f hf
    have hspmem : (f.byteStart, f.byteEnd) ∈ urlSpansB (strBytes text) := by
      rw [← hmap]
      exact List.mem_map.mpr ⟨f, hf, rfl⟩
    obtain ⟨hlt, hle, _, _⟩ := hspans _ hspmem
    exact ⟨hlt, hle, hsl f hf⟩
  · have : List.Chain' (fun a b => a.2 ≤ b.1)
        (fs.map (fun f => (f.byteStart, f.byteEnd))) := by
      rw [hmap]
      exact hchain
    rw [List.chain'_map] at this
    exact this

/-- Claim C7: every facet produced by `parse_links` records `byteStart` and
`byteEnd` as raw byte offsets into the UTF-8 encoding of the text (the byte
span between them is exactly the UTF-8 encoding of the facet's `uri`); in
particular, for `"see http://a.co here"` the facet is `(4, 15)` with `4` the
UTF-8 byte length of `"see "`, and with the multi-byte prefix `"ñé "`
(3 characters, 5 bytes) the facet starts at byte `5`, not character `3`. -/
theorem parse_links_byte_offsets :
    (∀ (text : List Char) (fs : List Facet), parse_links text = some fs →
      ∀ f ∈ fs, f.byteEnd ≤ (strBytes text).length ∧
        ((strBytes text).drop f.byteStart).take (f.byteEnd - f.byteStart) = utf8Encode f.uri)
    ∧ parse_links ("see http://a.co here".toList) =
        some [⟨4, 15, [104, 116, 116, 112, 58, 47, 47, 97, 46, 99, 111]⟩]
    ∧ (strBytes ("see ".toList)).length = 4
    ∧ parse_links ("ñé http://a.co".toList) =
        some [⟨5, 16, [104, 116, 116, 112, 58, 47, 47, 97, 46, 99, 111]⟩]
    ∧ (strBytes ("ñé ".toList)).length = 5
    ∧ ("ñé ".toList).length = 3 := by
  refine ⟨?_, by decide, by decide, by decide, by decide, by decide⟩
  intro text fs hfs f hf
  obtain ⟨fs0, hfs0, _, hprops, _⟩ := parse_links_spec text
  rw [hfs0] at hfs
  obtain rfl : fs0 = fs := Option.some.inj hfs
  obtain ⟨_, hle, hslice⟩ := hprops f hf
  exact ⟨hle, hslice⟩

theorem parse_links_byte_offsets_witness :
    ((strBytes ("see http://a.co here".toList)).drop 4).take (15 - 4) =
      utf8Encode [104, 116, 116, 112, 58, 47, 47, 97, 46, 99, 111] := by
  have h := parse_links_byte_offsets
  exact (h.1 ("see http://a.co here".toList)
    [⟨4, 15, [104, 116, 116, 112, 58, 47, 47, 97, 46, 99, 111]⟩] h.2.1
    ⟨4, 15, [104, 116, 116, 112, 58, 47, 47, 97, 46, 99, 111]⟩ (by decide)).2

/-- Claim C10: `parse_links` is total and well-formed: for every input string
it returns a facet list (never raises); every facet satisfies
`0 ≤ byteStart < byteEnd ≤` byte length of the encoded text; each match's
byte span starts and ends on a UTF-8 character boundary, so decoding it
succeeds (the span re-encodes the facet's `uri` exactly); and facets appear
in strictly increasing, non-overlapping byte order. -/
theorem parse_links_total_wf (text : List Char) :
    ∃ fs, parse_links text = some fs ∧
      (∀ f ∈ fs, f.byteStart < f.byteEnd ∧ f.byteEnd ≤ (strBytes text).length ∧
        ((strBytes text).drop f.byteStart).take (f.byteEnd - f.byteStart) = utf8Encode f.uri) ∧
      List.Chain' (fun a b => a.byteEnd ≤ b.byteStart) fs := by
  obtain ⟨fs, hfs, _, hprops, hchain⟩ := parse_links_spec text
  exact ⟨fs, hfs, hprops, hchain⟩

theorem parse_links_total_wf_witness :
    ∃ fs, parse_links ("día http://a.co http://b.co".toList) = some fs ∧
      (∀ f ∈ fs, f.byteStart < f.byteEnd ∧
        f.byteEnd ≤ (strBytes ("día http://a.co http://b.co".toList)).length ∧
        ((strBytes ("día http://a.co http://b.co".toList)).drop f.byteStart).take
          (f.byteEnd - f.byteStart) = utf8Encode f.uri) ∧
      List.Chain' (fun a b => a.byteEnd ≤ b.byteStart) fs :=
  parse_links_total_wf ("día http://a.co http://b.co".toList)

theorem head?_dropWhile_not (p : Char → Bool) (l : List Char) :
    ∀ c ∈ (l.dropWhile p).head?, p c = false := by
  induction l with
  | nil => simp
  | cons a r ih =>
    intro c hc
    rw [List.dropWhile_cons] at hc
    split at hc
    · exact ih c hc
    · simp at hc
      subst hc
      simp_all

theorem pyStrip_within (s : List Char) : pyStrip s <:+: s := by
  unfold pyStrip
  have h1 : s.dropWhile isPySpace <:+ s := List.dropWhile_suffix _
  have h2 : (s.dropWhile isPySpace).reverse.dropWhile isPySpace <:+
      (s.dropWhile isPySpace).reverse := List.dropWhile_suffix _
  obtain ⟨t, ht⟩ := h2
  have : ((s.dropWhile isPySpace).reverse.dropWhile isPySpace).reverse <+:
      s.dropWhile isPySpace := by
    refine ⟨t.reverse, ?_⟩
    have := congrArg List.reverse ht
    simpa using this
  exact this.isInfix.trans h1.isInfix

theorem pyStrip_mem {s : List Char} {c : Char} (h : c ∈ pyStrip s) : c ∈ s :=
  (pyStrip_within s).subset h

theorem pyStrip_head (s : List Char) :
    ∀ c ∈ (pyStrip s).head?, isPySpace c = false := by
  intro c hc
  unfold pyStrip at hc
  rw [List.head?_reverse] at hc
  set u := s.dropWhile isPySpace with hu
  have hsuf : u.reverse.dropWhile isPySpace <:+ u.reverse := List.dropWhile_suffix _
  obtain ⟨t, ht⟩ := hsuf
  have hne : u.reverse.dropWhile isPySpace ≠ [] := by
    intro hh
    rw [hh] at hc
    simp at hc
  have : (u.reverse.dropWhile isPySpace).getLast? = u.reverse.getLast? := by
    conv_rhs => rw [← ht]
    exact (List.getLast?_append_of_ne_nil t hne).symm
  rw [this, List.getLast?_reverse] at hc
  exact head?_dropWhile_not isPySpace s c hc

theorem pyStrip_last (s : List Char) :
    ∀ c ∈ (pyStrip s).getLast?, isPySpace c = false := by
  intro c hc
  unfold pyStrip at hc
  rw [List.getLast?_reverse] at hc
  exact head?_dropWhile_not isPySpace _ c hc

theorem dropWhile_eq_self_of_head (p : Char → Bool) (s : List Char)
    (h : ∀ c ∈ s.head?, p c = false) : s.dropWhile p = s := by
  cases s with
  | nil => rfl
  | cons a r =>
    rw [List.dropWhile_cons, if_neg]
    simp at h
    simp [h]

theorem pyStrip_eq_self (s : List Char)
    (hh : ∀ c ∈ s.head?, isPySpace c = false)
    (hl : ∀ c ∈ s.getLast?, isPySpace c = false) : pyStrip s = s := by
  unfold pyStrip
  rw [dropWhile_eq_self_of_head _ _ hh]
  rw [dropWhile_eq_self_of_head _ _ (by simpa [List.head?_reverse] using hl)]
  exact List.reverse_reverse s

theorem pyStrip_idem (s : List Char) : pyStrip (pyStrip s) = pyStrip s :=
  pyStrip_eq_self _ (pyStrip_head s) (pyStrip_last s)

theorem collapseAux_mem (s : List Char) :
    ∀ b, ∀ c ∈ collapseAux b s, isPySpace c = true → c = ' ' := by
  induction s with
  | nil => intro b c hc; simp [collapseAux] at hc
  | cons a r ih =>
    intro b c hc hsp
    rw [collapseAux] at hc
    split at hc
    · split at hc
      · exact ih true c hc hsp
      · rcases List.mem_cons.mp hc with rfl | hmem
        · rfl
        · exact ih true c hmem hsp
    · rcases List.mem_cons.mp hc with rfl | hmem
      · simp_all
      · exact ih false c hmem hsp

theorem collapseAux_chain (s : List Char) :
    List.Chain' wsApart (collapseAux false s) ∧
    List.Chain' wsApart (collapseAux true s) ∧
    (∀ c ∈ (collapseAux true s).head?, isPySpace c = false) := by
  induction s with
  | nil => exact ⟨List.chain'_nil, List.chain'_nil, by simp [collapseAux]⟩
  | cons a r ih =>
    obtain ⟨hf, ht, hh⟩ := ih
    by_cases hsp : isPySpace a = true
    · have e1 : collapseAux false (a :: r) = ' ' :: collapseAux true r := by
        rw [collapseAux]
        simp [hsp]
      have e2 : collapseAux true (a :: r) = collapseAux true r := by
        rw [collapseAux]
        simp [hsp]
      refine ⟨?_, by rw [e2]; exact ht, by rw [e2]; exact hh⟩
      rw [e1, List.chain'_cons']
      exact ⟨fun y hy => Or.inr (hh y hy), ht⟩
    · have hspf : isPySpace a = false := by simpa using hsp
      have e1 : collapseAux false (a :: r) = a :: collapseAux false r := by
        rw [collapseAux]
        simp [hspf]
      have e2 : collapseAux true (a :: r) = a :: collapseAux false r := by
        rw [collapseAux]
        simp [hspf]
      have hchain : List.Chain' wsApart (a :: collapseAux false r) := by
        rw [List.chain'_cons']
        exact ⟨fun y _ => Or.inl hspf, hf⟩
      exact ⟨by rw [e1]; exact hchain, by rw [e2]; exact hchain,
        by rw [e2]; intro c hc; simp at hc; subst hc; exact hspf⟩

theorem collapseAux_fixed (s : List Char)
    (hmem : ∀ c ∈ s, isPySpace c = true → c = ' ')
    (hchain : List.Chain' wsApart s) : collapseAux false s = s := by
  induction s with
  | nil => rfl
  | cons a r ih =>
    obtain ⟨hhd, htl⟩ := List.chain'_cons'.mp hchain
    by_cases hsp : isPySpace a = true
    · have ha : a = ' ' := hmem a (by simp) hsp
      have e1 : collapseAux false (a :: r) = ' ' :: collapseAux true r := by
        rw [collapseAux]
        simp [hsp]
      have e3 : collapseAux true r = collapseAux false r := by
        cases r with
        | nil => rfl
        | cons y r2 =>
          have hy : isPySpace y = false := by
            rcases hhd y (by simp) with h | h
            · rw [hsp] at h
              exact absurd h (by simp)
            · exact h
          rw [collapseAux, collapseAux]
          simp [hy]
      rw [e1, e3, ih (fun c hc hs => hmem c (by simp [hc]) hs) htl, ha]
    · have hspf : isPySpace a = false := by simpa using hsp
      have e1 : collapseAux false (a :: r) = a :: collapseAux false r := by
        rw [collapseAux]
        simp [hspf]
      rw [e1, ih (fun c hc hs => hmem c (by simp [hc]) hs) htl]

/-- Claim C3 counterexample: on `spliceText` the cleaned text is exactly
`"http://a"`, which is one of the matched (and even retained) URLs — a
matched URL occurrence survives in the cleaned text, contradicting
"every matched URL occurrence removed". -/
theorem extract_and_clean_text_cex :
    (extract_and_clean_text spliceText false).1 = "http://a".toList ∧
    "http://a".toList ∈ findallUrls spliceText ∧
    "http://a".toList ∈ (extract_and_clean_text spliceText false).2 ∧
    "http://a".toList <:+: (extract_and_clean_text spliceText false).1 := by
  decide

/-- Claim C3 (amended): for every input the retained list holds at most 2
URLs, each of UTF-8 byte length ≤ 256, in order of first appearance (a
sublist of the match list); each matched URL is removed by its own global
replace pass, but a later pass may splice a new occurrence of a matched URL
into the text, so removal from the final cleaned text is not guaranteed in
general; in the spec's example scenario (a short URL and a 300-byte-class
URL separated by spaces) exactly the short URL is retained and both URLs are
stripped from the cleaned text. -/
theorem extract_and_clean_text_spec :
    (∀ (text : List Char) (fc : Bool),
      (extract_and_clean_text text fc).2.length ≤ 2 ∧
      (∀ u ∈ (extract_and_clean_text text fc).2, (strBytes u).length ≤ 256) ∧
      (extract_and_clean_text text fc).2.Sublist (findallUrls text))
    ∧ findallUrls scenarioText = [shortUrlEx, longUrlEx]
    ∧ (strBytes shortUrlEx).length = 12
    ∧ (strBytes longUrlEx).length = 260
    ∧ extract_and_clean_text scenarioText false = ("Hello world".toList, [shortUrlEx]) := by
  refine ⟨?_, by decide, by decide, by decide, by decide⟩
  intro text fc
  have h2 : (extract_and_clean_text text fc).2 =
      ((findallUrls text).filter (fun u => decide ((strBytes u).length ≤ 256))).take 2 := rfl
  refine ⟨?_, ?_, ?_⟩
  · rw [h2]
    exact List.length_take_le 2 _
  · intro u hu
    rw [h2] at hu
    have := List.of_mem_filter (List.mem_of_mem_take hu)
    simpa using this
  · rw [h2]
    exact (List.take_sublist _ _).trans (List.filter_sublist _)

theorem extract_and_clean_text_spec_witness :
    (extract_and_clean_text spliceText false).2.length ≤ 2 ∧
    (strBytes ("http://a".toList)).length ≤ 256 ∧
    (extract_and_clean_text spliceText false).2.Sublist (findallUrls spliceText) := by
  have h := extract_and_clean_text_spec
  exact ⟨(h.1 spliceText false).1,
    (h.1 spliceText false).2.1 ("http://a".toList) (by decide),
    (h.1 spliceText false).2.2⟩

/-- Claim C8 counterexample: running the normalizer a second time on its own
output changes the text (the cleaned text of `spliceText` is `"http://a"`,
and the second pass strips it to `""`), and the second pass retains a URL. -/
theorem normalizer_not_idempotent_cex :
    (extract_and_clean_text ((extract_and_clean_text spliceText false).1) false).1 ≠
      (extract_and_clean_text spliceText false).1 ∧
    (extract_and_clean_text ((extract_and_clean_text spliceText false).1) false).2 ≠ [] := by
  decide

/-- Claim C8 (amended): idempotence fails in general (see the
counterexample), but holds in the whitespace-collapsing mode
(`for_farcaster = false`) whenever the first pass's cleaned output contains
no URL match: then a second pass returns the cleaned text unchanged and
retains no URLs. -/
theorem extract_and_clean_text_second_pass (text : List Char)
    (h : findallUrls ((extract_and_clean_text text false).1) = []) :
    extract_and_clean_text ((extract_and_clean_text text false).1) false =
      ((extract_and_clean_text text false).1, []) := by
  have hx : (extract_and_clean_text text false).1 =
      pyStrip (collapseWs ((findallUrls text).foldl
        (fun ct u => pyStrip (pyReplace ct u [])) text)) := rfl
  set x := (findallUrls text).foldl (fun ct u => pyStrip (pyReplace ct u [])) text with hxdef
  set c1 := (extract_and_clean_text text false).1 with hc1
  have hsecond : extract_and_clean_text c1 false = (pyStrip (collapseWs c1), []) := by
    unfold extract_and_clean_text
    rw [h]
    rfl
  have hmem1 : ∀ c ∈ c1, isPySpace c = true → c = ' ' := by
    intro c hc
    have : c ∈ collapseWs x := pyStrip_mem (hx ▸ hc)
    exact collapseAux_mem x false c this
  have hchain1 : List.Chain' wsApart c1 := by
    have hch : List.Chain' wsApart (collapseWs x) := (collapseAux_chain x).1
    rw [hx]
    exact List.Chain'.infix hch (pyStrip_within (collapseWs x))
  have hcoll : collapseWs c1 = c1 := collapseAux_fixed c1 hmem1 hchain1
  have hstrip : pyStrip c1 = c1 := by
    rw [hx]
    exact pyStrip_idem _
  rw [hsecond, hcoll, hstrip]

theorem extract_and_clean_text_second_pass_witness :
    extract_and_clean_text ((extract_and_clean_text ("a  b".toList) false).1) false =
      ((extract_and_clean_text ("a  b".toList) false).1, []) :=
  extract_and_clean_text_second_pass ("a  b".toList) (by decide)

theorem retryGo_ok {α : Type} {op : Nat → Except PyExc α} {jitter : Nat → ℚ}
    {fuel a : Nat} {last : Option PyExc} {sl : List ℚ} {v : α} (h : op a = .ok v) :
    retryGo op jitter (fuel+1) a last sl = ⟨.ok v, a + 1, sl⟩ := by
  rw [retryGo, h]

theorem retryGo_rl {α : Type} {op : Nat → Except PyExc α} {jitter : Nat → ℚ}
    {fuel a : Nat} {last : Option PyExc} {sl : List ℚ} {e : PyExc}
    (h : op a = .error e) (hrl : isRateLimit e = true) :
    retryGo op jitter (fuel+1) a last sl =
      retryGo op jitter fuel (a + 1) (some e)
        (sl ++ [exponential_backoff a (jitter a)]) := by
  rw [retryGo, h]
  simp [hrl]

theorem retryGo_hard {α : Type} {op : Nat → Except PyExc α} {jitter : Nat → ℚ}
    {fuel a : Nat} {last : Option PyExc} {sl : List ℚ} {e : PyExc}
    (h : op a = .error e) (hrl : isRateLimit e = false) :
    retryGo op jitter (fuel+1) a last sl = ⟨.error (some e), a + 1, sl⟩ := by
  rw [retryGo, h]
  simp [hrl]

theorem retryGo_attempts_le {α : Type} (op : Nat → Except PyExc α) (jitter : Nat → ℚ) :
    ∀ fuel a last sl, (retryGo op jitter fuel a last sl).attempts ≤ a + fuel := by
  intro fuel
  induction fuel with
  | zero => intro a last sl; simp [retryGo]
  | succ f ih =>
    intro a last sl
    cases hop : op a with
    | ok v =>
      rw [retryGo_ok hop]
      show a + 1 ≤ a + (f + 1)
      omega
    | error e =>
      by_cases hrl : isRateLimit e = true
      · rw [retryGo_rl hop hrl]
        have := ih (a + 1) (some e) (sl ++ [exponential_backoff a (jitter a)])
        omega
      · rw [retryGo_hard hop (by simpa using hrl)]
        show a + 1 ≤ a + (f + 1)
        omega

theorem retryGo_attempts_ge {α : Type} (op : Nat → Except PyExc α) (jitter : Nat → ℚ) :
    ∀ fuel a last sl, 0 < fuel → a + 1 ≤ (retryGo op jitter fuel a last sl).attempts := by
  intro fuel
  induction fuel with
  | zero => intro a last sl h; omega
  | succ f ih =>
    intro a last sl _
    cases hop : op a with
    | ok v =>
      rw [retryGo_ok hop]
    | error e =>
      by_cases hrl : isRateLimit e = true
      · rw [retryGo_rl hop hrl]
        cases f with
        | zero => rfl
        | succ f2 =>
          have := ih (a + 1) (some e) (sl ++ [exponential_backoff a (jitter a)]) (by omega)
          omega
      · rw [retryGo_hard hop (by simpa using hrl)]

theorem retryGo_ok_after_rl {α : Type} (op : Nat → Except PyExc α) (jitter : Nat → ℚ) :
    ∀ k fuel a last sl v, k < fuel →
      (∀ i, i < k → isRLfail (op (a + i)) = true) →
      op (a + k) = .ok v →
      retryGo op jitter fuel a last sl =
        ⟨.ok v, a + k + 1,
          sl ++ (List.range k).map (fun i => exponential_backoff (a + i) (jitter (a + i)))⟩ := by
  intro k
  induction k with
  | zero =>
    intro fuel a last sl v hk hrl hop
    obtain ⟨f, rfl⟩ : ∃ f, fuel = f + 1 := ⟨fuel - 1, by omega⟩
    rw [retryGo_ok (by simpa using hop)]
    simp
  | succ k ihk =>
    intro fuel a last sl v hk hrl hop
    obtain ⟨f, rfl⟩ : ∃ f, fuel = f + 1 := ⟨fuel - 1, by omega⟩
    have h0 := hrl 0 (by omega)
    simp only [Nat.add_zero] at h0
    cases hop0 : op a with
    | ok w => rw [hop0] at h0; simp [isRLfail] at h0
    | error e0 =>
      rw [hop0] at h0
      have hrl0 : isRateLimit e0 = true := by simpa [isRLfail] using h0
      rw [retryGo_rl hop0 hrl0]
      have hres := ihk f (a + 1) (some e0) (sl ++ [exponential_backoff a (jitter a)]) v
        (by omega)
        (fun i hi => by
          have := hrl (i + 1) (by omega)
          rwa [show a + (i + 1) = a + 1 + i from by omega] at this)
        (by rwa [show a + 1 + k = a + (k + 1) from by omega])
      rw [hres]
      have hfun : (fun i => exponential_backoff (a + 1 + i) (jitter (a + 1 + i))) =
          (fun i => exponential_backoff (a + (i + 1)) (jitter (a + (i + 1)))) := by
        funext i
        rw [show a + 1 + i = a + (i + 1) from by omega]
      simp only [RetryResult.mk.injEq, true_and]
      refine ⟨by omega, ?_⟩
      rw [hfun, List.range_succ_eq_map, List.map_cons, List.map_map,
        List.append_assoc, List.singleton_append]
      congr 2

theorem range_map_shift {beta : Type} (g : Nat → beta) (k : Nat) :
    g 0 :: (List.range k).map (fun i => g (i + 1)) = (List.range (k + 1)).map g := by
  rw [List.range_succ_eq_map, List.map_cons, List.map_map]
  rfl

theorem retryGo_hard_after_rl {α : Type} (op : Nat → Except PyExc α) (jitter : Nat → ℚ) :
    ∀ k fuel a last sl e, k < fuel →
      (∀ i, i < k → isRLfail (op (a + i)) = true) →
      op (a + k) = .error e → isRateLimit e = false →
      retryGo op jitter fuel a last sl =
        ⟨.error (some e), a + k + 1,
          sl ++ (List.range k).map (fun i => exponential_backoff (a + i) (jitter (a + i)))⟩ := by
  intro k
  induction k with
  | zero =>
    intro fuel a last sl e hk hrl hop hhard
    obtain ⟨f, rfl⟩ : ∃ f, fuel = f + 1 := ⟨fuel - 1, by omega⟩
    rw [retryGo_hard (by simpa using hop) hhard]
    simp
  | succ k ihk =>
    intro fuel a last sl e hk hrl hop hhard
    obtain ⟨f, rfl⟩ : ∃ f, fuel = f + 1 := ⟨fuel - 1, by omega⟩
    have h0 := hrl 0 (by omega)
    simp only [Nat.add_zero] at h0
    cases hop0 : op a with
    | ok w => rw [hop0] at h0; simp [isRLfail] at h0
    | error e0 =>
      rw [hop0] at h0
      have hrl0 : isRateLimit e0 = true := by simpa [isRLfail] using h0
      rw [retryGo_rl hop0 hrl0]
      have hres := ihk f (a + 1) (some e0) (sl ++ [exponential_backoff a (jitter a)]) e
        (by omega)
        (fun i hi => by
          have := hrl (i + 1) (by omega)
          rwa [show a + (i + 1) = a + 1 + i from by omega] at this)
        (by rwa [show a + 1 + k = a + (k + 1) from by omega])
        hhard
      rw [hres]
      have hfun : (fun i => exponential_backoff (a + 1 + i) (jitter (a + 1 + i))) =
          (fun i => exponential_backoff (a + (i + 1)) (jitter (a + (i + 1)))) := by
        funext i
        rw [show a + 1 + i = a + (i + 1) from by omega]
      simp only [RetryResult.mk.injEq, true_and]
      refine ⟨by omega, ?_⟩
      rw [hfun, List.range_succ_eq_map, List.map_cons, List.map_map,
        List.append_assoc, List.singleton_append]
      congr 2

theorem retryGo_all_rl {α : Type} (op : Nat → Except PyExc α) (jitter : Nat → ℚ) :
    ∀ fuel a last sl, 0 < fuel →
      (∀ i, i < fuel → isRLfail (op (a + i)) = true) →
      ∀ e, op (a + fuel - 1) = .error e →
      retryGo op jitter fuel a last sl =
        ⟨.error (some e), a + fuel,
          sl ++ (List.range fuel).map (fun i => exponential_backoff (a + i) (jitter (a + i)))⟩ := by
  intro fuel
  induction fuel with
  | zero => intro a last sl h; omega
  | succ f ihf =>
    intro a last sl _ hrl e hop
    have h0 := hrl 0 (by omega)
    simp only [Nat.add_zero] at h0
    cases hop0 : op a with
    | ok w => rw [hop0] at h0; simp [isRLfail] at h0
    | error e0 =>
      rw [hop0] at h0
      have hrl0 : isRateLimit e0 = true := by simpa [isRLfail] using h0
      rw [retryGo_rl hop0 hrl0]
      cases f with
      | zero =>
        have he : e0 = e := by
          have h2 : op a = .error e := by simpa using hop
          rw [hop0] at h2
          exact Except.error.inj h2
        subst he
        rw [retryGo]
        simp [List.range_succ]
      | succ f2 =>
        have hres := ihf (a + 1) (some e0) (sl ++ [exponential_backoff a (jitter a)])
          (by omega)
          (fun i hi => by
            have := hrl (i + 1) (by omega)
            rwa [show a + (i + 1) = a + 1 + i from by omega] at this)
          e
          (by rwa [show a + 1 + (f2 + 1) - 1 = a + (f2 + 1 + 1) - 1 from by omega])
        rw [hres]
        have hfun : (fun i => exponential_backoff (a + 1 + i) (jitter (a + 1 + i))) =
            (fun i => exponential_backoff (a + (i + 1)) (jitter (a + (i + 1)))) := by
          funext i
          rw [show a + 1 + i = a + (i + 1) from by omega]
        simp only [RetryResult.mk.injEq, true_and]
        refine ⟨by omega, ?_⟩
        rw [hfun, List.append_assoc, List.singleton_append]
        congr 1
        rw [← range_map_shift (fun i => exponential_backoff (a + i) (jitter (a + i))) (f2 + 1)]
        simp

/-- Claim C6: for every attempt number `n` and every jitter drawn from
`[0, 0.1 * min(32, 2^n))`, the delay returned by `exponential_backoff`
lies in `[min(32, 2^n), 1.1 * min(32, 2^n)]` — that is, in
`[2^n, 1.1 * 2^n]` when `2^n ≤ 32` and in `[32, 35.2]` otherwise. -/
theorem exponential_backoff_bounds (n : Nat) (j : ℚ)
    (h0 : 0 ≤ j) (h1 : j < (1 / 10) * min 32 ((2 : ℚ) ^ n)) :
    (min 32 ((2 : ℚ) ^ n) ≤ exponential_backoff n j ∧
      exponential_backoff n j ≤ (11 / 10) * min 32 ((2 : ℚ) ^ n)) ∧
    ((2 : ℚ) ^ n ≤ 32 → (2 : ℚ) ^ n ≤ exponential_backoff n j ∧
      exponential_backoff n j ≤ (11 / 10) * ((2 : ℚ) ^ n)) ∧
    (32 < (2 : ℚ) ^ n → 32 ≤ exponential_backoff n j ∧
      exponential_backoff n j ≤ 176 / 5) := by
  have hd : exponential_backoff n j = min 32 ((2 : ℚ) ^ n) + j := rfl
  refine ⟨⟨by rw [hd]; linarith, by rw [hd]; linarith⟩, ?_, ?_⟩
  · intro hle
    have hmin : min 32 ((2 : ℚ) ^ n) = (2 : ℚ) ^ n := min_eq_right hle
    rw [hmin] at h1
    rw [hd, hmin]
    constructor <;> linarith
  · intro hlt
    have hmin : min 32 ((2 : ℚ) ^ n) = 32 := min_eq_left (le_of_lt hlt)
    rw [hmin] at h1
    rw [hd, hmin]
    constructor <;> linarith

theorem exponential_backoff_bounds_witness :
    min 32 ((2 : ℚ) ^ 6) ≤ exponential_backoff 6 1 ∧
    exponential_backoff 6 1 ≤ 176 / 5 := by
  have h := exponential_backoff_bounds 6 1 (by norm_num) (by norm_num)
  exact ⟨h.1.1, (h.2.2 (by norm_num)).2⟩

/-- Claim C5: `post_with_retry` invokes the wrapped operation at most
`max_retries` times (default 3).  If the first `k` invocations fail
rate-limited and invocation `k` succeeds, the value is returned after `k + 1`
invocations having slept the backoff delay for each rate-limited failure.
If invocation `k` fails with a non-rate-limit error after `k` rate-limited
failures, that error propagates immediately after `k + 1` invocations.  If
all `max_retries` invocations fail rate-limited, the last rate-limit failure
propagates after exactly `max_retries` invocations. -/
theorem post_with_retry_spec {α : Type} (op : Nat → Except PyExc α) (jitter : Nat → ℚ)
    (m : Nat) :
    (post_with_retry op jitter m).attempts ≤ m
    ∧ (post_with_retry op jitter).attempts ≤ 3
    ∧ (∀ k v, k < m → (∀ i, i < k → isRLfail (op i) = true) → op k = .ok v →
        post_with_retry op jitter m =
          ⟨.ok v, k + 1, (List.range k).map (fun i => exponential_backoff i (jitter i))⟩)
    ∧ (∀ k e, k < m → (∀ i, i < k → isRLfail (op i) = true) → op k = .error e →
        isRateLimit e = false →
        post_with_retry op jitter m =
          ⟨.error (some e), k + 1, (List.range k).map (fun i => exponential_backoff i (jitter i))⟩)
    ∧ (0 < m → (∀ i, i < m → isRLfail (op i) = true) →
        ∀ e, op (m - 1) = .error e →
        post_with_retry op jitter m =
          ⟨.error (some e), m, (List.range m).map (fun i => exponential_backoff i (jitter i))⟩) := by
  refine ⟨?_, ?_, ?_, ?_, ?_⟩
  · simpa using retryGo_attempts_le op jitter m 0 none []
  · simpa using retryGo_attempts_le op jitter 3 0 none []
  · intro k v hk hrl hop
    have h := retryGo_ok_after_rl op jitter k m 0 none [] v hk
      (by simpa using hrl) (by simpa using hop)
    simpa using h
  · intro k e hk hrl hop hhard
    have h := retryGo_hard_after_rl op jitter k m 0 none [] e hk
      (by simpa using hrl) (by simpa using hop) hhard
    simpa using h
  · intro hm hrl e hop
    have h := retryGo_all_rl op jitter m 0 none [] hm
      (by simpa using hrl) e (by simpa using hop)
    simpa using h

theorem post_with_retry_spec_witness :
    (post_with_retry (fun i => if i < 2 then Except.error ⟨some 429, 0⟩ else Except.ok "done")
        (fun _ => 0) 3).result = .ok "done" ∧
    (post_with_retry (fun i => if i < 2 then Except.error ⟨some 429, 0⟩ else Except.ok "done")
        (fun _ => 0) 3).attempts = 3 := by
  have h := (post_with_retry_spec
    (fun i => if i < 2 then Except.error ⟨some 429, 0⟩ else Except.ok "done")
    (fun _ => 0) 3).2.2.1 2 "done" (by omega) (by decide) (by rfl)
  rw [h]
  exact ⟨rfl, rfl⟩

/-- Claim C2: for every combination of the three per-platform success flags,
the status string built by `post_to_social` equals the claim's format:
`"Posted: "` plus comma-joined alphabetically sorted successes, followed
(only when at least one failed) by `" / Failed: "` plus comma-joined
alphabetically sorted failures; the `"Posted"` clause is absent exactly when
nothing succeeded, the `"Failed"` clause absent exactly when nothing
failed. -/
theorem post_to_social_status_string :
    (∀ b f t : Bool, statusMsg b f t = specStatusString b f t)
    ∧ (∀ (twOp : Nat → Except PyExc String) (fcOp : Nat → Except PyExc Nat)
        (bsOp : Nat → Except PyExc String) (jt jf jb : Nat → ℚ),
        (post_to_social twOp fcOp bsOp jt jf jb).status_msg =
          specStatusString (exOk (post_with_retry bsOp jb).result)
            (exOk (post_with_retry fcOp jf).result)
            (exOk (post_with_retry twOp jt).result)) := by
  have hb : ∀ b f t : Bool, statusMsg b f t = specStatusString b f t := by decide
  exact ⟨hb, fun twOp fcOp bsOp jt jf jb => hb _ _ _⟩

/-- Claim C4: `post_to_social` is total over all publisher outcomes: each of
the three publishers is invoked (at least one attempt each) regardless of
the others' failures, a raised publisher error is caught and recorded as that
platform's failure (its reference field is `none` and the status string
reflects its failure flag), a successful publisher's reference is returned,
and the result tuple with its status string is always produced — no
exception propagates. -/
theorem post_to_social_isolation
    (twOp : Nat → Except PyExc String) (fcOp : Nat → Except PyExc Nat)
    (bsOp : Nat → Except PyExc String) (jt jf jb : Nat → ℚ) :
    (1 ≤ (post_to_social twOp fcOp bsOp jt jf jb).twitterAttempts ∧
     1 ≤ (post_to_social twOp fcOp bsOp jt jf jb).farcasterAttempts ∧
     1 ≤ (post_to_social twOp fcOp bsOp jt jf jb).blueskyAttempts)
    ∧ (post_to_social twOp fcOp bsOp jt jf jb).status_msg =
        statusMsg (exOk (post_with_retry bsOp jb).result)
          (exOk (post_with_retry fcOp jf).result)
          (exOk (post_with_retry twOp jt).result)
    ∧ (∀ e, (post_with_retry twOp jt).result = .error e →
        (post_to_social twOp fcOp bsOp jt jf jb).tweet_url = none)
    ∧ (∀ v, (post_with_retry twOp jt).result = .ok v →
        (post_to_social twOp fcOp bsOp jt jf jb).tweet_url =
          some ("https://twitter.com/user/status/" ++ v))
    ∧ (∀ e, (post_with_retry fcOp jf).result = .error e →
        (post_to_social twOp fcOp bsOp jt jf jb).farcaster_status = none)
    ∧ (∀ c, (post_with_retry fcOp jf).result = .ok c →
        (post_to_social twOp fcOp bsOp jt jf jb).farcaster_status = some c)
    ∧ (∀ e, (post_with_retry bsOp jb).result = .error e →
        (post_to_social twOp fcOp bsOp jt jf jb).bluesky_uri = none)
    ∧ (∀ u, (post_with_retry bsOp jb).result = .ok u →
        (post_to_social twOp fcOp bsOp jt jf jb).bluesky_uri = some u) := by
  refine ⟨⟨?_, ?_, ?_⟩, rfl, ?_, ?_, ?_, ?_, ?_, ?_⟩
  · simpa using retryGo_attempts_ge twOp jt 3 0 none [] (by omega)
  · simpa using retryGo_attempts_ge fcOp jf 3 0 none [] (by omega)
  · simpa using retryGo_attempts_ge bsOp jb 3 0 none [] (by omega)
  · intro e he
    simp only [post_to_social]
    rw [he]
  · intro v hv
    simp only [post_to_social]
    rw [hv]
  · intro e he
    simp only [post_to_social]
    rw [he]
  · intro c hc
    simp only [post_to_social]
    rw [hc]
  · intro e he
    simp only [post_to_social]
    rw [he]
  · intro u hu
    simp only [post_to_social]
    rw [hu]

theorem post_to_social_isolation_witness :
    (post_to_social (fun _ => .error ⟨none, 0⟩) (fun _ => .ok 200) (fun _ => .ok "at://x")
      (fun _ => 0) (fun _ => 0) (fun _ => 0)).tweet_url = none ∧
    (post_to_social (fun _ => .error ⟨none, 0⟩) (fun _ => .ok 200) (fun _ => .ok "at://x")
      (fun _ => 0) (fun _ => 0) (fun _ => 0)).farcaster_status = some 200 ∧
    (post_to_social (fun _ => .error ⟨none, 0⟩) (fun _ => .ok 200) (fun _ => .ok "at://x")
      (fun _ => 0) (fun _ => 0) (fun _ => 0)).bluesky_uri = some "at://x" ∧
    1 ≤ (post_to_social (fun _ => .error ⟨none, 0⟩) (fun _ => .ok 200) (fun _ => .ok "at://x")
      (fun _ => 0) (fun _ => 0) (fun _ => 0)).twitterAttempts := by
  have h := post_to_social_isolation (fun _ => .error ⟨none, 0⟩) (fun _ => .ok 200)
    (fun _ => .ok "at://x") (fun _ => 0) (fun _ => 0) (fun _ => 0)
  exact ⟨h.2.2.1 (some ⟨none, 0⟩) rfl, h.2.2.2.2.2.1 200 rfl,
    h.2.2.2.2.2.2.2 "at://x" rfl, h.1.1⟩

/-- Claim C1 (code bug): a user sends a first text and then a second text
before the 36-unit window elapses.  The first timer is cancelled and the
entry is overwritten with the second text — but when the cancelled task's
`CancelledError` is delivered, `except Exception` does not catch it
(`CancelledError` derives from `BaseException` since Python 3.8), so its
`finally` runs `del pending_posts[user_id]`, deleting the *second* entry.
When the second timer then elapses it finds no entry and publishes nothing:
no publish ever fires, where the claim (and the spec) require exactly one
publish carrying the second text. -/
theorem debounce_two_texts_drops_post :
    (runTrace [Event.recvText 7 "first" 1, Event.recvText 7 "second" 1]).pending 7 =
      some ⟨"second", 1, 1⟩ ∧
    (runTrace [Event.recvText 7 "first" 1, Event.recvText 7 "second" 1]).tasks 0 =
      some ⟨7, .cancelRequested⟩ ∧
    (runTrace [Event.recvText 7 "first" 1, Event.recvText 7 "second" 1,
      Event.runCancelled 0]).pending 7 = none ∧
    (runTrace [Event.recvText 7 "first" 1, Event.recvText 7 "second" 1,
      Event.runCancelled 0, Event.fireTimer 1 true]).published = [] ∧
    (runTrace [Event.recvText 7 "first" 1, Event.recvText 7 "second" 1,
      Event.runCancelled 0, Event.fireTimer 1 true]).replies = [] := by
  refine ⟨by decide, by decide, by decide, by decide, by decide⟩

/-- Claim C9: on every completion of `wait_and_post` (normal timer firing —
whether the publish succeeded or the backstop `except` path ran — or
cancellation cleanup) and on every completion of `handle_photo`, the user's
entry is removed from `pending_posts`; with the table keyed by user id this
keeps at most one pending post per user and leaves no orphaned entry. -/
theorem pending_cleanup_on_completion (s : BotState) :
    (∀ tid u ok, s.tasks tid = some ⟨u, .sleeping⟩ →
      (step s (.fireTimer tid ok)).pending u = none)
    ∧ (∀ tid u, s.tasks tid = some ⟨u, .cancelRequested⟩ →
      (step s (.runCancelled tid)).pending u = none)
    ∧ (∀ u ok, (step s (.recvPhoto u ok)).pending u = none) := by
  refine ⟨?_, ?_, ?_⟩
  · intro tid u ok h
    cases hp : s.pending u <;> simp [step, h, hp]
  · intro tid u h
    simp [step, h]
  · intro u ok
    cases hp : s.pending u <;> simp [step, hp]

theorem pending_cleanup_on_completion_witness :
    (step (runTrace [Event.recvText 7 "hi" 1]) (.fireTimer 0 true)).pending 7 = none ∧
    (step (runTrace [Event.recvText 7 "hi" 1, Event.recvText 7 "again" 1])
      (.runCancelled 0)).pending 7 = none ∧
    (step (runTrace [Event.recvText 7 "hi" 1]) (.recvPhoto 7 true)).pending 7 = none := by
  refine ⟨?_, ?_, ?_⟩
  · exact (pending_cleanup_on_completion (runTrace [Event.recvText 7 "hi" 1])).1
      0 7 true (by decide)
  · exact (pending_cleanup_on_completion
      (runTrace [Event.recvText 7 "hi" 1, Event.recvText 7 "again" 1])).2.1
      0 7 (by decide)
  · exact (pending_cleanup_on_completion (runTrace [Event.recvText 7 "hi" 1])).2.2 7 true
